import Mathlib

/-!
Verification of the `xsum` hashing engine (package `xsum` and the
`cmd/xsum` xattr cache) of the ophymx/utils repository, as a shallow
embedding in Lean.

Modelling conventions:
* Go byte slices are `List Nat`; Go strings are `String`.
* A Go `map[string][]byte` is an association list `SumsMap` with the
  usual first-match lookup; insertion overwrites an existing key.
* Go errors are `Option String` (`none` = nil error) or `Except String`.
* The opaque digest primitives (`hash.Hash` values produced by the
  per-algorithm factories) are modelled by the bytes written so far plus
  an abstract per-algorithm finalisation function `sumOf` supplied as a
  parameter; a primitive may carry a write error (`writeErr`) to model
  the `err != nil` branch of `hashImpl.Write`.
* The filesystem is a parameter `fs : String → Except String (List Nat)`
  giving a file's full contents or the open/read error
  (`os.Open` / `io.Copy` failures are collapsed into one error value,
  which is how `hashFile` surfaces them anyway).
* Go's integer division panics on a zero divisor; the model returns
  `none` in that case.
-/

/-- Go `map[string][]byte`: an association list from algorithm identifier
to digest bytes. -/
abbrev SumsMap := List (String × List Nat)

/-- First-match lookup in a `SumsMap`, Go `v, ok := m[k]`. -/
def mapGet (m : SumsMap) (k : String) : Option (List Nat) :=
  (m.find? (fun kv => kv.1 == k)).map Prod.snd

/-- Go map assignment `m[k] = v`: overwrite the entry for `k` if present,
else add one. -/
def mapSet : SumsMap → String → List Nat → SumsMap
  | [], k, v => [(k, v)]
  | kv :: rest, k, v =>
    if kv.1 == k then (k, v) :: rest else kv :: mapSet rest k v

/-- The `xsum.Cache` interface: `Get` returns a sums map together with an
optional error (Go returns both values); `Set` returns an optional error. -/
structure Cache where
  get : String → SumsMap × Option String
  set : String → SumsMap → Option String

/-- One opaque digest primitive (`hash.Hash`): the bytes successfully
written so far, and an optional error with which its `Write` fails
(`none` for the real primitives, whose `Write` never fails). -/
structure HashPrim where
  written : List Nat
  writeErr : Option String
deriving DecidableEq, Repr

/-- The `hashImpl` struct: its `digests` map, as an association list from
algorithm identifier to primitive (Go map keys are distinct). -/
structure hashImpl where
  digests : List (String × HashPrim)
deriving DecidableEq, Repr

/-- The `serverImpl` struct: the cache (nil modelled as `none`) and the
key set of its `algorithms` map, in insertion order.  The map's values
(the per-algorithm `NewHashFunc` factories) are opaque external hash
constructors; they are abstracted by the `sumOf` finalisation parameter
of the functions below.  The `closers` field only affects `Close`, which
no claim concerns. -/
structure serverImpl where
  cache : Option Cache
  algorithms : List String

/-- The algorithm identifiers accepted by the `switch` in `NewServer`:
its four non-default cases. -/
def supportedAlgorithms : List String := ["md5", "sha256", "sha1", "sha512"]

/-- Insertion of a key into the `algorithms` map: a repeated key
overwrites the stored factory and leaves the key set unchanged. -/
def addAlgorithm (keys : List String) (a : String) : List String :=
  if a ∈ keys then keys else keys ++ [a]

/-- The loop of `NewServer` over the requested identifiers: each supported
identifier is inserted into the `algorithms` map, and the `default` case
returns the error `unknown algorithm: <identifier>` immediately. -/
def buildAlgorithms (acc : List String) : List String → Except String (List String)
  | [] => .ok acc
  | a :: rest =>
    if a ∈ supportedAlgorithms then buildAlgorithms (addAlgorithm acc a) rest
    else .error ("unknown algorithm: " ++ a)

/-- The `NewServer` constructor: builds the algorithm map from the
requested identifiers, failing on the first unknown one. -/
def NewServer (cache : Option Cache) (algorithms : List String) :
    Except String serverImpl :=
  match buildAlgorithms [] algorithms with
  | .ok keys => .ok ⟨cache, keys⟩
  | .error e => .error e

/-- The `serverImpl.NumberOfWorkers` method.  Go evaluates
`runtime.NumCPU() / len(srv.algorithms)` with integer division, which
panics when the algorithm map is empty: that panic is modelled as `none`.
Note the code returns 16 when the quotient exceeds 16 and otherwise
returns the constant 1 — the quotient itself is never returned. -/
def NumberOfWorkers (numCPU numAlgorithms : Nat) : Option Nat :=
  if numAlgorithms = 0 then none
  else
    let num := numCPU / numAlgorithms
    if num > 16 then some 16 else some 1

/-- One primitive's `Write`: on success the bytes are appended to its
accumulated state; a failing primitive leaves its state unchanged and
reports its error. -/
def primWrite (p : HashPrim) (data : List Nat) : HashPrim × Option String :=
  match p.writeErr with
  | some e => (p, some e)
  | none => ({ p with written := p.written ++ data }, none)

/-- The loop of `hashImpl.Write`: each primitive in iteration order
receives the bytes; the first failing write returns immediately, leaving
the remaining primitives untouched. -/
def hashWrite : List (String × HashPrim) → List Nat →
    List (String × HashPrim) × Option String
  | [], _ => ([], none)
  | (a, p) :: rest, data =>
    match primWrite p data with
    | (p2, some e) => ((a, p2) :: rest, some e)
    | (p2, none) =>
      let (rest2, e2) := hashWrite rest data
      ((a, p2) :: rest2, e2)

/-- The `hashImpl.Write` method: threads the state of every primitive and
returns the first write error, if any (Go mutates `h` in place; the model
returns the updated struct alongside the error). -/
def hashImplWrite (h : hashImpl) (data : List Nat) : hashImpl × Option String :=
  (⟨(hashWrite h.digests data).1⟩, (hashWrite h.digests data).2)

/-- The `hashImpl.MultiSum` method: one entry per primitive, mapping the
algorithm identifier to `digest.Sum(data)`, i.e. the caller-supplied
prefix followed by that primitive's finalised digest.  `sumOf` is the
abstract finalisation of the opaque primitive for a given algorithm. -/
def MultiSum (sumOf : String → List Nat → List Nat) (h : hashImpl)
    (data : List Nat) : SumsMap :=
  h.digests.map (fun kv => (kv.1, data ++ sumOf kv.1 kv.2.written))

/-- The `serverImpl.NewHash` method: a fresh primitive per algorithm in
the map, with empty state and no write error (the real factories return
primitives whose `Write` never fails). -/
def NewHash (srv : serverImpl) : hashImpl :=
  ⟨srv.algorithms.map (fun a => (a, ⟨[], none⟩))⟩

/-- A `result` struct sent on `resultChan` and handed to `onResult`. -/
structure Result where
  filename : String
  sums : SumsMap
  err : Option String
deriving DecidableEq, Repr

/-- The `hashFile` helper: opens the file, streams its contents through
the hash, and finalises with `MultiSum(nil)`; an open/read/write error
yields a nil sums map and the error. -/
def hashFile (sumOf : String → List Nat → List Nat)
    (fs : String → Except String (List Nat)) (filename : String)
    (h : hashImpl) : SumsMap × Option String :=
  match fs filename with
  | .error e => ([], some e)
  | .ok contents =>
    match hashImplWrite h contents with
    | (_, some e) => ([], some e)
    | (h2, none) => (MultiSum sumOf h2 [], none)

/-- The compute path of the worker loop in `serverImpl.Parallel`: hash the
file with a fresh `NewHash`; when a cache is present and hashing
succeeded, the `Set` error (if any) replaces the nil error; the emitted
result carries the sums and that error. -/
def computeResult (srv : serverImpl) (sumOf : String → List Nat → List Nat)
    (fs : String → Except String (List Nat)) (filename : String) : Result :=
  match srv.cache, hashFile sumOf fs filename (NewHash srv) with
  | some c, (sums, none) => ⟨filename, sums, c.set filename sums⟩
  | _, (sums, err) => ⟨filename, sums, err⟩

/-- The body of the worker loop in `serverImpl.Parallel` for one filename:
when a cache is present and `Get` returns a nil error, the entry is used
only if no algorithm of the map is missing from it; otherwise (missing
algorithm, `Get` error, or no cache) the file is hashed afresh. -/
def processFile (srv : serverImpl) (sumOf : String → List Nat → List Nat)
    (fs : String → Except String (List Nat)) (filename : String) : Result :=
  match srv.cache with
  | some c =>
    match c.get filename with
    | (sums, none) =>
      if srv.algorithms.any (fun a => (mapGet sums a).isNone) then
        computeResult srv sumOf fs filename
      else ⟨filename, sums, none⟩
    | (_, some _) => computeResult srv sumOf fs filename
  | none => computeResult srv sumOf fs filename

/-- The `serverImpl.Parallel` method.  The Go code sends every filename
once on `fileChan`, each is claimed by exactly one worker, which emits
exactly one `result` for it, and a single consumer goroutine invokes
`onResult` for every received result before `Parallel` returns.  The
model records the multiset of emitted results (listed in input order;
actual delivery order depends on scheduling).  The worker count is
computed first; with an empty algorithm map that computation panics on a
division by zero, modelled as `none`.  The count itself (16 or 1, always
positive) does not affect which results are produced. -/
def Parallel (numCPU : Nat) (srv : serverImpl)
    (sumOf : String → List Nat → List Nat)
    (fs : String → Except String (List Nat)) (filenames : List String) :
    Option (List Result) :=
  match NumberOfWorkers numCPU srv.algorithms.length with
  | none => none
  | some _ => some (filenames.map (fun f => processFile srv sumOf fs f))

/-!
Model of the `xattrCache` of `cmd/xsum/cache.go`, backed by the
`attrutil` extended-attribute helpers.  The store for one file is the
association list of its attribute keys inside the `user.xsum` namespace
(the names as `attrutil` returns them, i.e. with the namespace prefix
already trimmed) and their values.  The OS xattr calls `List`/`Set` are
modelled as pure operations on that store; `Get` fails exactly when the
key is absent.  The file's stat information is a parameter: its
modification time in Unix seconds, or the stat error.
-/

/-- The xattr store of one file: key/value pairs inside `user.xsum`. -/
abbrev AttrMap := SumsMap

/-- The `attrutil` `Get(path, key)`: the stored value, or the OS
attribute-not-found error when the key is absent. -/
def attrGet (attrs : AttrMap) (key : String) : Except String (List Nat) :=
  match mapGet attrs key with
  | some v => .ok v
  | none => .error ("attribute not found: " ++ key)

/-- The `attrutil` `List(path)`: the keys of the store. -/
def attrList (attrs : AttrMap) : List String :=
  attrs.map Prod.fst

/-- The `attrutil` `DeleteNS(path, "")` performed by the stale branch of
`xattrCache.Get`.  With the cache namespace `user.xsum`, it removes the
trimmed keys having the prefix `user.xsum.` — which no key written by the
cache ever has, so the intended purge removes nothing. -/
def attrDeleteNSRoot (attrs : AttrMap) : AttrMap :=
  attrs.filter (fun kv => !(kv.1.startsWith "user.xsum."))

/-- Little-endian base-256 digits of a number, fixed width:
`binary.LittleEndian.AppendUint64` produces `leBytes 8 (t % 2^64)`, and
for `t < 2^64` simply `leBytes 8 t`. -/
def leBytes : Nat → Nat → List Nat
  | 0, _ => []
  | k + 1, t => t % 256 :: leBytes k (t / 256)

/-- Little-endian base-256 value of the first `k` bytes:
`binary.LittleEndian.Uint64` is `leUint 8`.  (Go panics when fewer than
8 bytes are present; the cache only ever stores 8-byte values, and the
model reads missing bytes as zero.) -/
def leUint : Nat → List Nat → Nat
  | 0, _ => 0
  | _ + 1, [] => 0
  | k + 1, b :: bs => b + 256 * leUint k bs

/-- The `timeToBytes` helper of cache.go (times as Unix seconds). -/
def timeToBytes (t : Nat) : List Nat := leBytes 8 t

/-- The `timeFromBytes` helper of cache.go. -/
def timeFromBytes (b : List Nat) : Nat := leUint 8 b

/-- The `xattrCache.Get` method over the model state: stat the file, read
and decode the stored `time` attribute, treat the entry as absent (and
attempt the no-op namespace purge) when the modification time is after
the stored timestamp, and otherwise collect every non-`time` attribute
into the sums map.  Returns the possibly-updated store together with
Go's `(sums, err)` pair. -/
def xattrCacheGet (modTime : Except String Nat) (attrs : AttrMap) :
    AttrMap × (SumsMap × Option String) :=
  match modTime with
  | .error e => (attrs, ([], some e))
  | .ok mt =>
    match attrGet attrs "time" with
    | .error e => (attrs, ([], some e))
    | .ok b =>
      let timestamp := timeFromBytes b
      if timestamp < mt then
        (attrDeleteNSRoot attrs, ([], none))
      else
        let sums := (attrList attrs).foldl
          (fun sums key =>
            if key = "time" then sums
            else
              match attrGet attrs key with
              | .ok v => mapSet sums key v
              | .error _ => sums) []
        (attrs, (sums, none))

/-- The `xattrCache.Set` method over the model state: store each digest
under its algorithm key, then store `time` as the current time; in the
pure store model the xattr writes succeed, so no error is returned. -/
def xattrCacheSet (now : Nat) (attrs : AttrMap) (sums : SumsMap) :
    AttrMap × Option String :=
  (mapSet (sums.foldl (fun a kv => mapSet a kv.1 kv.2) attrs) "time"
    (timeToBytes now), none)

/-!
Helper lemmas about the embedded operations.
-/

/-- The sums computed for one file on the compute path: the digests of
the full contents, finalised with an empty prefix (`MultiSum(nil)`). -/
def freshSums (srv : serverImpl) (sumOf : String → List Nat → List Nat)
    (contents : List Nat) : SumsMap :=
  MultiSum sumOf (hashImplWrite (NewHash srv) contents).1 []

theorem hashWrite_all_ok (data : List Nat) :
    ∀ ds : List (String × HashPrim), (∀ kv ∈ ds, kv.2.writeErr = none) →
    hashWrite ds data =
      (ds.map (fun kv => (kv.1, { kv.2 with written := kv.2.written ++ data })),
       none) := by
  intro ds
  induction ds with
  | nil => intro _; rfl
  | cons kv rest ih =>
    intro h
    obtain ⟨a, p⟩ := kv
    have hp : p.writeErr = none := h (a, p) (List.mem_cons_self _ _)
    have hrest := ih (fun kv hkv => h kv (List.mem_cons_of_mem _ hkv))
    simp only [hashWrite, primWrite, hp, hrest, List.map_cons]

theorem hashWrite_keys (data : List Nat) :
    ∀ ds : List (String × HashPrim),
    (hashWrite ds data).1.map Prod.fst = ds.map Prod.fst := by
  intro ds
  induction ds with
  | nil => rfl
  | cons kv rest ih =>
    obtain ⟨a, p⟩ := kv
    simp only [hashWrite, primWrite]
    cases hp : p.writeErr with
    | some e => simp
    | none => simpa using ih

theorem computeResult_filename (srv : serverImpl)
    (sumOf : String → List Nat → List Nat)
    (fs : String → Except String (List Nat)) (f : String) :
    (computeResult srv sumOf fs f).filename = f := by
  unfold computeResult
  cases srv.cache with
  | none =>
    cases h : hashFile sumOf fs f (NewHash srv) with
    | mk sums err => cases err <;> rfl
  | some c =>
    cases h : hashFile sumOf fs f (NewHash srv) with
    | mk sums err => cases err <;> rfl

theorem processFile_filename (srv : serverImpl)
    (sumOf : String → List Nat → List Nat)
    (fs : String → Except String (List Nat)) (f : String) :
    (processFile srv sumOf fs f).filename = f := by
  unfold processFile
  split
  · split
    · split
      · exact computeResult_filename srv sumOf fs f
      · rfl
    · exact computeResult_filename srv sumOf fs f
  · exact computeResult_filename srv sumOf fs f

/-- C1: the worker-count formula of the spec, W = min(16, max(1, NumCPU /
numAlgorithms)), disagrees with the code: with 8 processors and 2
algorithms the formula yields 4, but `NumberOfWorkers` returns 1, because
the method returns the constant 1 whenever the quotient is not above 16
instead of returning the quotient. -/
theorem numberOfWorkers_formula_divergence :
    NumberOfWorkers 8 2 = some 1 ∧
    min 16 (max 1 (8 / 2)) = 4 ∧
    NumberOfWorkers 8 2 ≠ some (min 16 (max 1 (8 / 2))) := by
  decide

/-- C9: with a non-empty algorithm map, `Parallel` produces exactly one
result per input path — `onResult` is invoked once per path, whatever mix
of cache hits, misses and errors the paths produce — and the batch it
hands to the sink covers the whole input list. -/
theorem parallel_once_per_path (numCPU : Nat) (srv : serverImpl)
    (sumOf : String → List Nat → List Nat)
    (fs : String → Except String (List Nat)) (filenames : List String)
    (h : srv.algorithms ≠ []) :
    ∃ rs, Parallel numCPU srv sumOf fs filenames = some rs ∧
      rs.map Result.filename = filenames ∧
      rs.length = filenames.length := by
  have hlen : srv.algorithms.length ≠ 0 := by
    simpa [List.length_eq_zero] using h
  refine ⟨filenames.map (fun f => processFile srv sumOf fs f), ?_, ?_, ?_⟩
  · unfold Parallel NumberOfWorkers
    simp only [hlen, if_false]
    cases hq : srv.algorithms.length with
    | zero => exact absurd hq hlen
    | succ n =>
      by_cases h16 : numCPU / (n + 1) > 16 <;> simp [h16]
  · rw [List.map_map]
    have : (Result.filename ∘ fun f => processFile srv sumOf fs f) = id := by
      funext f
      exact processFile_filename srv sumOf fs f
    rw [this, List.map_id]
  · simp

/-- C9 witness: a concrete one-algorithm engine over two paths yields two
results, one per path. -/
theorem parallel_once_per_path_witness :
    ∃ rs, Parallel 4 ⟨none, ["md5"]⟩ (fun _ w => w) (fun _ => .ok [1])
        ["a", "b"] = some rs ∧
      rs.map Result.filename = ["a", "b"] ∧ rs.length = 2 :=
  parallel_once_per_path 4 ⟨none, ["md5"]⟩ (fun _ w => w) (fun _ => .ok [1])
    ["a", "b"] (by decide)

/-- C10: `NewServer` applied to the empty identifier list succeeds with an
empty algorithm map (non-emptiness is not enforced at construction), and
`Parallel` on such an engine hits the division by zero inside
`NumberOfWorkers` (modelled as `none`, the Go panic); with any non-empty
algorithm map that branch is unreachable. -/
theorem newServer_empty_reaches_division_by_zero (cache : Option Cache)
    (numCPU : Nat) (sumOf : String → List Nat → List Nat)
    (fs : String → Except String (List Nat)) (filenames : List String) :
    (∃ srv, NewServer cache [] = .ok srv ∧ srv.algorithms = []) ∧
    (∀ srv : serverImpl, srv.algorithms = [] →
      Parallel numCPU srv sumOf fs filenames = none) ∧
    (∀ srv : serverImpl, srv.algorithms ≠ [] →
      (Parallel numCPU srv sumOf fs filenames).isSome) := by
  refine ⟨⟨⟨cache, []⟩, rfl, rfl⟩, ?_, ?_⟩
  · intro srv hsrv
    unfold Parallel NumberOfWorkers
    simp [hsrv]
  · intro srv hsrv
    have hlen : srv.algorithms.length ≠ 0 := by
      simpa [List.length_eq_zero] using hsrv
    unfold Parallel NumberOfWorkers
    simp only [hlen, if_false]
    by_cases h16 : numCPU / srv.algorithms.length > 16 <;> simp [h16]

/-- C10 witness: concrete instantiation of the empty-set construction and
the reachable division-by-zero branch. -/
theorem newServer_empty_reaches_division_by_zero_witness :
    Parallel 8 ⟨none, []⟩ (fun _ w => w) (fun _ => .ok []) ["a"] = none :=
  (newServer_empty_reaches_division_by_zero none 8 (fun _ w => w)
      (fun _ => .ok []) ["a"]).2.1 ⟨none, []⟩ rfl

theorem newHash_writeErr_none (srv : serverImpl) :
    ∀ kv ∈ (NewHash srv).digests, kv.2.writeErr = none := by
  intro kv hkv
  unfold NewHash at hkv
  obtain ⟨a, _, rfl⟩ := List.mem_map.mp hkv
  rfl

theorem hashFile_ok (srv : serverImpl) (sumOf : String → List Nat → List Nat)
    (fs : String → Except String (List Nat)) (filename : String)
    (contents : List Nat) (hfs : fs filename = .ok contents) :
    hashFile sumOf fs filename (NewHash srv) =
      (freshSums srv sumOf contents, none) := by
  simp only [hashFile, hfs, hashImplWrite,
    hashWrite_all_ok contents (NewHash srv).digests (newHash_writeErr_none srv),
    freshSums]

theorem freshSums_keys (srv : serverImpl)
    (sumOf : String → List Nat → List Nat) (contents : List Nat) :
    (freshSums srv sumOf contents).map Prod.fst = srv.algorithms := by
  unfold freshSums MultiSum hashImplWrite
  rw [List.map_map]
  have : (Prod.fst ∘ fun kv : String × HashPrim =>
      (kv.1, [] ++ sumOf kv.1 kv.2.written)) = Prod.fst := by
    funext kv; rfl
  rw [this, hashWrite_keys]
  unfold NewHash
  rw [List.map_map]
  have h2 : (Prod.fst ∘ fun a : String => (a, (⟨[], none⟩ : HashPrim))) = id := by
    funext a; rfl
  rw [h2, List.map_id]

/-- C2: a cached entry missing even one requested algorithm is treated as
a full miss: the worker takes the compute path exactly as if no entry
existed, and (when the file is readable) the emitted digest map is a
fresh computation covering every requested algorithm. -/
theorem partial_cache_entry_is_full_miss (srv : serverImpl) (c : Cache)
    (sumOf : String → List Nat → List Nat)
    (fs : String → Except String (List Nat)) (filename : String)
    (sums : SumsMap) (a : String)
    (hc : srv.cache = some c) (hget : c.get filename = (sums, none))
    (ha : a ∈ srv.algorithms) (hmiss : mapGet sums a = none) :
    processFile srv sumOf fs filename = computeResult srv sumOf fs filename ∧
    ∀ contents, fs filename = .ok contents →
      processFile srv sumOf fs filename =
        ⟨filename, freshSums srv sumOf contents,
          c.set filename (freshSums srv sumOf contents)⟩ ∧
      (freshSums srv sumOf contents).map Prod.fst = srv.algorithms := by
  have hany : srv.algorithms.any (fun a => (mapGet sums a).isNone) = true :=
    List.any_eq_true.mpr ⟨a, ha, by simp [hmiss]⟩
  have hred : processFile srv sumOf fs filename =
      computeResult srv sumOf fs filename := by
    simp only [processFile, hc, hget, hany, if_true]
  refine ⟨hred, ?_⟩
  intro contents hfs
  rw [hred]
  constructor
  · simp only [computeResult, hc, hashFile_ok srv sumOf fs filename contents hfs]
  · exact freshSums_keys srv sumOf contents

/-- C2 witness: a cached entry covering only md5 under a requested set of
md5 and sha256 triggers recomputation of both. -/
theorem partial_cache_entry_is_full_miss_witness :
    processFile ⟨some ⟨fun _ => ([("md5", [7])], none), fun _ _ => none⟩,
        ["md5", "sha256"]⟩ (fun _ w => w) (fun _ => .ok [1, 2]) "f" =
      computeResult ⟨some ⟨fun _ => ([("md5", [7])], none), fun _ _ => none⟩,
        ["md5", "sha256"]⟩ (fun _ w => w) (fun _ => .ok [1, 2]) "f" :=
  (partial_cache_entry_is_full_miss
    ⟨some ⟨fun _ => ([("md5", [7])], none), fun _ _ => none⟩, ["md5", "sha256"]⟩
    ⟨fun _ => ([("md5", [7])], none), fun _ _ => none⟩
    (fun _ w => w) (fun _ => .ok [1, 2]) "f" [("md5", [7])] "sha256"
    rfl rfl (by decide) (by decide)).1

/-- C4: a cache lookup that returns an error is downgraded to a cache
miss: the worker's outcome for that file is exactly the compute-path
outcome, so the lookup error never aborts the file's processing and is
never carried into its result. -/
theorem cache_get_error_is_miss (srv : serverImpl) (c : Cache)
    (sumOf : String → List Nat → List Nat)
    (fs : String → Except String (List Nat)) (filename : String)
    (sums : SumsMap) (e : String)
    (hc : srv.cache = some c) (hget : c.get filename = (sums, some e)) :
    processFile srv sumOf fs filename = computeResult srv sumOf fs filename := by
  simp only [processFile, hc, hget]

/-- C4 witness: a cache whose lookup always fails still yields the
compute-path result. -/
theorem cache_get_error_is_miss_witness :
    processFile ⟨some ⟨fun _ => ([], some "no entry"), fun _ _ => none⟩, ["md5"]⟩
        (fun _ w => w) (fun _ => .ok [3]) "f" =
      computeResult ⟨some ⟨fun _ => ([], some "no entry"), fun _ _ => none⟩, ["md5"]⟩
        (fun _ w => w) (fun _ => .ok [3]) "f" :=
  cache_get_error_is_miss
    ⟨some ⟨fun _ => ([], some "no entry"), fun _ _ => none⟩, ["md5"]⟩
    ⟨fun _ => ([], some "no entry"), fun _ _ => none⟩
    (fun _ w => w) (fun _ => .ok [3]) "f" [] "no entry" rfl rfl

/-- C5: when the digests were freshly computed without I/O error and the
cache `Set` then fails, the emitted result still carries the valid
computed digest map — covering every requested algorithm — and the `Set`
error is propagated into the result's error field. -/
theorem cache_set_error_propagated (srv : serverImpl) (c : Cache)
    (sumOf : String → List Nat → List Nat)
    (fs : String → Except String (List Nat)) (filename : String)
    (contents : List Nat) (e : String)
    (hc : srv.cache = some c) (hfs : fs filename = .ok contents)
    (hset : c.set filename (freshSums srv sumOf contents) = some e) :
    computeResult srv sumOf fs filename =
      ⟨filename, freshSums srv sumOf contents, some e⟩ ∧
    (freshSums srv sumOf contents).map Prod.fst = srv.algorithms := by
  constructor
  · simp only [computeResult, hc,
      hashFile_ok srv sumOf fs filename contents hfs, hset]
  · exact freshSums_keys srv sumOf contents

/-- C5 witness: a cache whose `Set` always fails still lets the result
carry the computed digests, with the `Set` error attached. -/
theorem cache_set_error_propagated_witness :
    computeResult ⟨some ⟨fun _ => ([], some "no entry"), fun _ _ => some "persist failed"⟩,
        ["md5"]⟩ (fun _ w => w) (fun _ => .ok [9]) "f" =
      ⟨"f", freshSums ⟨some ⟨fun _ => ([], some "no entry"), fun _ _ => some "persist failed"⟩,
        ["md5"]⟩ (fun _ w => w) [9], some "persist failed"⟩ :=
  (cache_set_error_propagated
    ⟨some ⟨fun _ => ([], some "no entry"), fun _ _ => some "persist failed"⟩, ["md5"]⟩
    ⟨fun _ => ([], some "no entry"), fun _ _ => some "persist failed"⟩
    (fun _ w => w) (fun _ => .ok [9]) "f" [9] "persist failed" rfl rfl rfl).1

/-!
Construction lemmas: the key set built by `NewServer`.
-/

theorem addAlgorithm_mem (acc : List String) (a x : String) :
    x ∈ addAlgorithm acc a ↔ x ∈ acc ∨ x = a := by
  unfold addAlgorithm
  by_cases h : a ∈ acc
  · simp only [h, if_true]
    constructor
    · exact Or.inl
    · rintro (hx | rfl)
      · exact hx
      · exact h
  · simp [h, List.mem_append]

theorem addAlgorithm_nodup (acc : List String) (a : String)
    (h : acc.Nodup) : (addAlgorithm acc a).Nodup := by
  unfold addAlgorithm
  by_cases ha : a ∈ acc
  · simpa [ha] using h
  · simp only [ha, if_false]
    rw [List.nodup_append]
    refine ⟨h, List.nodup_singleton a, ?_⟩
    intro x hx hxa
    simp only [List.mem_singleton] at hxa
    subst hxa
    exact ha hx

theorem buildAlgorithms_mem :
    ∀ (l acc keys : List String), buildAlgorithms acc l = .ok keys →
      ∀ x, x ∈ keys ↔ x ∈ acc ∨ x ∈ l := by
  intro l
  induction l with
  | nil =>
    intro acc keys h x
    simp only [buildAlgorithms] at h
    cases h
    simp
  | cons a rest ih =>
    intro acc keys h x
    simp only [buildAlgorithms] at h
    by_cases hs : a ∈ supportedAlgorithms
    · rw [if_pos hs] at h
      have := ih (addAlgorithm acc a) keys h x
      rw [this, addAlgorithm_mem]
      simp only [List.mem_cons]
      tauto
    · rw [if_neg hs] at h
      cases h

theorem buildAlgorithms_nodup :
    ∀ (l acc keys : List String), acc.Nodup → buildAlgorithms acc l = .ok keys →
      keys.Nodup := by
  intro l
  induction l with
  | nil =>
    intro acc keys hacc h
    simp only [buildAlgorithms] at h
    cases h
    exact hacc
  | cons a rest ih =>
    intro acc keys hacc h
    simp only [buildAlgorithms] at h
    by_cases hs : a ∈ supportedAlgorithms
    · rw [if_pos hs] at h
      exact ih (addAlgorithm acc a) keys (addAlgorithm_nodup acc a hacc) h
    · rw [if_neg hs] at h
      cases h

theorem newServer_ok_build (cache : Option Cache) (algos : List String)
    (srv : serverImpl) (h : NewServer cache algos = .ok srv) :
    buildAlgorithms [] algos = .ok srv.algorithms := by
  unfold NewServer at h
  cases hb : buildAlgorithms [] algos with
  | ok keys =>
    rw [hb] at h
    cases h
    rfl
  | error e =>
    rw [hb] at h
    cases h

theorem foldWrite_keys (ws : List (List Nat)) :
    ∀ h : hashImpl,
      ((ws.foldl (fun h w => (hashImplWrite h w).1) h).digests.map Prod.fst)
        = h.digests.map Prod.fst := by
  induction ws with
  | nil => intro h; rfl
  | cons w rest ih =>
    intro h
    rw [List.foldl_cons, ih]
    exact hashWrite_keys w h.digests

/-- C3: for an engine built by `NewServer` from a non-empty identifier
list, `MultiSum` of a multi-hash in any state reachable from `NewHash` by
writes returns a map whose keys are exactly the algorithm set: listed
without duplicates, and containing an algorithm iff it was requested. -/
theorem multiSum_keys_eq_algorithm_set (cache : Option Cache)
    (algos : List String) (srv : serverImpl)
    (sumOf : String → List Nat → List Nat) (ws : List (List Nat))
    (data : List Nat) (_hne : algos ≠ [])
    (hok : NewServer cache algos = .ok srv) :
    ((MultiSum sumOf (ws.foldl (fun h w => (hashImplWrite h w).1) (NewHash srv))
        data).map Prod.fst = srv.algorithms) ∧
    srv.algorithms.Nodup ∧
    (∀ a, a ∈ srv.algorithms ↔ a ∈ algos) := by
  have hb := newServer_ok_build cache algos srv hok
  refine ⟨?_, ?_, ?_⟩
  · unfold MultiSum
    rw [List.map_map]
    have : (Prod.fst ∘ fun kv : String × HashPrim =>
        (kv.1, data ++ sumOf kv.1 kv.2.written)) = Prod.fst := by
      funext kv; rfl
    rw [this, foldWrite_keys]
    unfold NewHash
    rw [List.map_map]
    have h2 : (Prod.fst ∘ fun a : String => (a, (⟨[], none⟩ : HashPrim))) = id := by
      funext a; rfl
    rw [h2, List.map_id]
  · exact buildAlgorithms_nodup algos [] srv.algorithms List.nodup_nil hb
  · intro a
    have := buildAlgorithms_mem algos [] srv.algorithms hb a
    simpa using this

/-- C3 witness: a two-algorithm engine, after one write, produces a sums
map keyed exactly by its algorithm set. -/
theorem multiSum_keys_eq_algorithm_set_witness :
    ∃ srv, NewServer none ["md5", "sha256"] = .ok srv ∧
      (MultiSum (fun _ w => w)
        ([[5]].foldl (fun h w => (hashImplWrite h w).1) (NewHash srv))
        []).map Prod.fst = srv.algorithms := by
  refine ⟨⟨none, ["md5", "sha256"]⟩, rfl, ?_⟩
  exact (multiSum_keys_eq_algorithm_set none ["md5", "sha256"]
    ⟨none, ["md5", "sha256"]⟩ (fun _ w => w) [[5]] [] (by decide) rfl).1

/-- First identifier of the list outside the supported vocabulary: the
one the `switch` default case trips on. -/
def firstUnknown (algos : List String) : Option String :=
  algos.find? (fun a => !(supportedAlgorithms.contains a))

theorem buildAlgorithms_ok_of_supported :
    ∀ (l acc : List String), (∀ a ∈ l, a ∈ supportedAlgorithms) →
      ∃ keys, buildAlgorithms acc l = .ok keys := by
  intro l
  induction l with
  | nil => intro acc _; exact ⟨acc, rfl⟩
  | cons a rest ih =>
    intro acc h
    have hs : a ∈ supportedAlgorithms := h a (List.mem_cons_self _ _)
    obtain ⟨keys, hkeys⟩ :=
      ih (addAlgorithm acc a) (fun x hx => h x (List.mem_cons_of_mem _ hx))
    exact ⟨keys, by simp only [buildAlgorithms, if_pos hs]; exact hkeys⟩

theorem buildAlgorithms_error_of_firstUnknown :
    ∀ (l acc : List String) (a : String), firstUnknown l = some a →
      buildAlgorithms acc l = .error ("unknown algorithm: " ++ a) := by
  intro l
  induction l with
  | nil => intro acc a h; cases h
  | cons b rest ih =>
    intro acc a h
    unfold firstUnknown at h
    rw [List.find?_cons] at h
    by_cases hb : b ∈ supportedAlgorithms
    · have hcon : supportedAlgorithms.contains b = true :=
        List.elem_eq_true_of_mem hb
      rw [hcon] at h
      simp only [Bool.not_true] at h
      simp only [buildAlgorithms, if_pos hb]
      exact ih (addAlgorithm acc b) a h
    · have hcon : supportedAlgorithms.contains b = false := by
        by_contra hc
        exact hb (List.mem_of_elem_eq_true (Bool.of_not_eq_false hc))
      rw [hcon] at h
      simp only [Bool.not_false, Option.some.injEq] at h
      subst h
      simp only [buildAlgorithms, if_neg hb]

/-- C7: construction fails exactly on unsupported identifiers: a list
whose first unknown identifier is `a` makes `NewServer` return the error
`unknown algorithm: a` (and hence no engine), any list containing an
unknown identifier yields no engine, and a list of supported identifiers
always yields an engine. -/
theorem newServer_unknown_algorithm (cache : Option Cache)
    (algos : List String) :
    ((∀ a ∈ algos, a ∈ supportedAlgorithms) →
      ∃ srv, NewServer cache algos = .ok srv) ∧
    (∀ a, firstUnknown algos = some a →
      NewServer cache algos = .error ("unknown algorithm: " ++ a)) ∧
    ((∃ a ∈ algos, a ∉ supportedAlgorithms) →
      ∀ srv, NewServer cache algos ≠ .ok srv) := by
  refine ⟨?_, ?_, ?_⟩
  · intro h
    obtain ⟨keys, hkeys⟩ := buildAlgorithms_ok_of_supported algos [] h
    exact ⟨⟨cache, keys⟩, by simp only [NewServer, hkeys]⟩
  · intro a ha
    simp only [NewServer, buildAlgorithms_error_of_firstUnknown algos [] a ha]
  · rintro ⟨a, ha, hna⟩ srv hok
    have hsome : (firstUnknown algos).isSome := by
      unfold firstUnknown
      rw [List.find?_isSome]
      refine ⟨a, ha, ?_⟩
      simp only [Bool.not_eq_true']
      by_contra hc
      exact hna (List.mem_of_elem_eq_true (Bool.of_not_eq_false hc))
    obtain ⟨b, hb⟩ := Option.isSome_iff_exists.mp hsome
    rw [show NewServer cache algos = .error ("unknown algorithm: " ++ b) by
      simp only [NewServer, buildAlgorithms_error_of_firstUnknown algos [] b hb]]
      at hok
    exact Except.noConfusion hok

/-- C7 witness: the supported pair md5, sha256 constructs an engine, and
a list containing the identifier crc32 fails naming crc32. -/
theorem newServer_unknown_algorithm_witness :
    (∃ srv, NewServer none ["md5", "sha256"] = .ok srv) ∧
    NewServer none ["md5", "crc32"] = .error "unknown algorithm: crc32" :=
  ⟨(newServer_unknown_algorithm none ["md5", "sha256"]).1 (by decide),
   (newServer_unknown_algorithm none ["md5", "crc32"]).2.1 "crc32" (by decide)⟩

/-- C8 counterexample: with two primitives of which the second one's
write fails, `Write` does propagate the error — but the first primitive
has already received the bytes while the failing one has not, so the
write IS partially applied: one primitive holds bytes another does not. -/
theorem write_failure_partial_apply_cex :
    (hashImplWrite ⟨[("md5", ⟨[], none⟩), ("sha256", ⟨[], some "boom"⟩)]⟩
        [1, 2]).2 = some "boom" ∧
    (hashImplWrite ⟨[("md5", ⟨[], none⟩), ("sha256", ⟨[], some "boom"⟩)]⟩
        [1, 2]).1.digests.map (fun kv => kv.2.written) = [[1, 2], []] := by
  constructor <;> rfl

/-- C8 (amended): `Write` forwards the identical byte sequence to every
underlying primitive when all writes succeed; if some primitive's write
fails, the first failing primitive's error is propagated immediately, and
at that point the primitives before it in iteration order have received
the bytes while the failing primitive and those after it have not. -/
theorem write_propagates_first_error (ds : List (String × HashPrim))
    (data : List Nat) :
    ((hashWrite ds data).2 = none →
      (hashWrite ds data).1 =
        ds.map (fun kv => (kv.1, { kv.2 with written := kv.2.written ++ data }))) ∧
    (∀ e, (hashWrite ds data).2 = some e →
      ∃ pre kv post, ds = pre ++ kv :: post ∧
        (∀ bp ∈ pre, bp.2.writeErr = none) ∧
        kv.2.writeErr = some e ∧
        (hashWrite ds data).1 =
          pre.map (fun bp => (bp.1, { bp.2 with written := bp.2.written ++ data }))
            ++ kv :: post) := by
  induction ds with
  | nil =>
    exact ⟨fun _ => rfl, fun e he => Option.noConfusion he⟩
  | cons kv rest ih =>
    obtain ⟨a, p⟩ := kv
    cases hp : p.writeErr with
    | some e0 =>
      constructor
      · intro h
        simp only [hashWrite, primWrite, hp] at h
        exact Option.noConfusion h
      · intro e he
        simp only [hashWrite, primWrite, hp, Option.some.injEq] at he
        subst he
        refine ⟨[], (a, p), rest, rfl, by simp, hp, ?_⟩
        simp only [hashWrite, primWrite, hp, List.map_nil, List.nil_append]
    | none =>
      constructor
      · intro h
        simp only [hashWrite, primWrite, hp] at h ⊢
        rw [(ih.1 (by simpa [hashWrite, primWrite, hp] using h))]
        simp [hp]
      · intro e he
        simp only [hashWrite, primWrite, hp] at he
        obtain ⟨pre, kv2, post, hsplit, hpre, herr, hstate⟩ := ih.2 e he
        refine ⟨(a, p) :: pre, kv2, post, by rw [hsplit]; rfl, ?_, herr, ?_⟩
        · intro bp hbp
          rcases List.mem_cons.mp hbp with h1 | h2
          · subst h1; exact hp
          · exact hpre bp h2
        · simp only [hashWrite, primWrite, hp, List.map_cons, List.cons_append]
          exact congrArg _ hstate

/-- C8 amended witness: a single successful primitive receives exactly
the written bytes. -/
theorem write_propagates_first_error_witness :
    (hashWrite [("md5", ⟨[], none⟩)] [7]).1 = [("md5", ⟨[7], none⟩)] := by
  have h := (write_propagates_first_error [("md5", ⟨[], none⟩)] [7]).1 (by rfl)
  simpa using h

/-!
Association-list lemmas for the xattr store and the mod-time roundtrip.
-/

theorem mapGet_cons (kv : String × List Nat) (l : SumsMap) (k : String) :
    mapGet (kv :: l) k = if kv.1 == k then some kv.2 else mapGet l k := by
  simp only [mapGet, List.find?_cons]
  cases h : (kv.1 == k) <;> simp [h]

theorem mapGet_mapSet_self (m : SumsMap) (k : String) (v : List Nat) :
    mapGet (mapSet m k v) k = some v := by
  induction m with
  | nil => simp [mapSet, mapGet_cons]
  | cons kv rest ih =>
    simp only [mapSet]
    cases h : (kv.1 == k) with
    | true => simp [mapGet_cons]
    | false => simp [mapGet_cons, h, ih]

theorem mapGet_mapSet_ne (m : SumsMap) (k : String) (v : List Nat)
    (k2 : String) (hne : k2 ≠ k) :
    mapGet (mapSet m k v) k2 = mapGet m k2 := by
  have hb : (k == k2) = false := by
    simp only [beq_eq_false_iff_ne, ne_eq]
    exact fun hc => hne hc.symm
  induction m with
  | nil => simp [mapSet, mapGet_cons, hb, mapGet]
  | cons kv rest ih =>
    simp only [mapSet]
    cases h : (kv.1 == k) with
    | true =>
      have hk : kv.1 = k := by simpa using h
      simp [mapGet_cons, hb, hk]
    | false => simp [mapGet_cons, h, ih]

theorem mapGet_foldl_not_mem (sums : SumsMap) :
    ∀ (attrs : AttrMap) (a : String), a ∉ sums.map Prod.fst →
      mapGet (sums.foldl (fun acc kv => mapSet acc kv.1 kv.2) attrs) a
        = mapGet attrs a := by
  induction sums with
  | nil => intro attrs a _; rfl
  | cons kv rest ih =>
    intro attrs a ha
    simp only [List.map_cons, List.mem_cons] at ha
    push_neg at ha
    rw [List.foldl_cons, ih (mapSet attrs kv.1 kv.2) a ha.2,
      mapGet_mapSet_ne attrs kv.1 kv.2 a ha.1]

theorem mapGet_foldl_mem (sums : SumsMap) :
    ∀ (attrs : AttrMap) (a : String) (d : List Nat),
      (sums.map Prod.fst).Nodup → (a, d) ∈ sums →
      mapGet (sums.foldl (fun acc kv => mapSet acc kv.1 kv.2) attrs) a
        = some d := by
  induction sums with
  | nil => intro attrs a d _ h; cases h
  | cons kv rest ih =>
    intro attrs a d hnd hmem
    simp only [List.map_cons, List.nodup_cons] at hnd
    rw [List.foldl_cons]
    rcases List.mem_cons.mp hmem with h1 | h2
    · subst h1
      rw [mapGet_foldl_not_mem rest (mapSet attrs a d) a hnd.1]
      exact mapGet_mapSet_self attrs a d
    · exact ih (mapSet attrs kv.1 kv.2) a d hnd.2 h2

theorem mod_base_split (t M : Nat) (hM : 0 < M) :
    t % (256 * M) = t % 256 + 256 * (t / 256 % M) := by
  have h1 : t % 256 < 256 := Nat.mod_lt _ (by norm_num)
  have h2 : t / 256 % M < M := Nat.mod_lt _ hM
  have e1 : t = 256 * (t / 256) + t % 256 := (Nat.div_add_mod t 256).symm
  have e2 : t / 256 = M * (t / 256 / M) + t / 256 % M :=
    (Nat.div_add_mod (t / 256) M).symm
  have key : t = (256 * M) * (t / 256 / M) + (t % 256 + 256 * (t / 256 % M)) := by
    conv_lhs => rw [e1, e2]
    ring
  have hr : t % 256 + 256 * (t / 256 % M) < 256 * M := by omega
  conv_lhs => rw [key]
  rw [Nat.mul_add_mod, Nat.mod_eq_of_lt hr]

theorem leUint_leBytes : ∀ (k t : Nat), leUint k (leBytes k t) = t % 256 ^ k := by
  intro k
  induction k with
  | zero => intro t; simp [leUint, leBytes, Nat.mod_one]
  | succ k ih =>
    intro t
    have hM : 0 < 256 ^ k := Nat.pos_pow_of_pos k (by norm_num)
    simp only [leBytes, leUint, ih (t / 256)]
    rw [show (256 : Nat) ^ (k + 1) = 256 * 256 ^ k by ring,
      mod_base_split t (256 ^ k) hM]

/-- C6: a cache entry whose stored timestamp predates the file's current
modification time is treated as absent: `xattrCache.Get` attempts the
namespace purge and returns no digest map and no error; a nil map with a
nil error is a full miss for the engine whenever its algorithm set is
non-empty, so the digests are recomputed; and a subsequent
`xattrCache.Set` overwrites the store with the fresh digests and the
current time as the new timestamp, which decodes back to that time. -/
theorem stale_cache_entry_recomputed (attrs : AttrMap) (tb : List Nat)
    (m : Nat) (sumOf : String → List Nat → List Nat)
    (fs : String → Except String (List Nat))
    (hT : attrGet attrs "time" = .ok tb)
    (hstale : timeFromBytes tb < m) :
    xattrCacheGet (.ok m) attrs = (attrDeleteNSRoot attrs, ([], none)) ∧
    (∀ (srv : serverImpl) (c : Cache) (filename : String),
      srv.cache = some c → c.get filename = ([], none) →
      srv.algorithms ≠ [] →
      processFile srv sumOf fs filename = computeResult srv sumOf fs filename) ∧
    (∀ (attrs2 : AttrMap) (sums : SumsMap) (now : Nat),
      attrGet (xattrCacheSet now attrs2 sums).1 "time"
        = .ok (timeToBytes now)) ∧
    (∀ (attrs2 : AttrMap) (sums : SumsMap) (now : Nat) (a : String)
        (d : List Nat),
      (sums.map Prod.fst).Nodup → (a, d) ∈ sums → a ≠ "time" →
      attrGet (xattrCacheSet now attrs2 sums).1 a = .ok d) ∧
    (∀ now : Nat, now < 2 ^ 64 → timeFromBytes (timeToBytes now) = now) := by
  refine ⟨?_, ?_, ?_, ?_, ?_⟩
  · simp only [xattrCacheGet, hT]
    rw [if_pos hstale]
  · intro srv c filename hsc hget hne
    have hany : srv.algorithms.any (fun a => (mapGet [] a).isNone) = true := by
      obtain ⟨x, xs, hxx⟩ : ∃ x xs, srv.algorithms = x :: xs := by
        cases h : srv.algorithms with
        | nil => exact absurd h hne
        | cons x xs => exact ⟨x, xs, rfl⟩
      rw [hxx]
      simp [mapGet]
    simp only [processFile, hsc, hget, hany, if_true]
  · intro attrs2 sums now
    simp only [xattrCacheSet, attrGet, mapGet_mapSet_self]
  · intro attrs2 sums now a d hnd hmem hne2
    simp only [xattrCacheSet, attrGet]
    rw [mapGet_mapSet_ne _ _ _ a hne2, mapGet_foldl_mem sums attrs2 a d hnd hmem]
  · intro now hlt
    unfold timeFromBytes timeToBytes
    have h8 : (256 : Nat) ^ 8 = 2 ^ 64 := by norm_num
    rw [leUint_leBytes 8 now, h8, Nat.mod_eq_of_lt hlt]

/-- C6 witness: a store holding a timestamp of 5 for a file modified at
time 10 is treated as absent by `Get`. -/
theorem stale_cache_entry_recomputed_witness :
    xattrCacheGet (.ok 10) [("time", timeToBytes 5), ("md5", [1])] =
      (attrDeleteNSRoot [("time", timeToBytes 5), ("md5", [1])], ([], none)) :=
  (stale_cache_entry_recomputed [("time", timeToBytes 5), ("md5", [1])]
    (timeToBytes 5) 10 (fun _ w => w) (fun _ => .ok [1])
    rfl (by decide)).1
